import Mathlib

/-!
Shallow embedding of the event-binding code generator in
`ethers-contract-abigen/src/contract/events.rs`.

Emitted Rust code is modelled as structured values (`EventDef`, `EnumDef`,
`FilterMethod`, ...) rather than raw token streams; the fields record exactly
the information the corresponding `quote!` fragments emit.  Collaborators that
live outside the given source file (the type mapper `types::expand_event_inputs`,
`util::can_derive_defaults`, the `Inflector` casing functions, and
`EventExt::abi_signature`) are modelled from the specification, as marked in
their doc comments.
-/

namespace EventsGen

/-- ABI parameter types, mirroring `ethabi::ParamType` as used by the
generator (`address`, `bytes`, `int<n>`, `uint<n>`, `bool`, `string`,
arrays, fixed-size arrays, fixed-size bytes and tuples). -/
inductive ParamType : Type
  | address : ParamType
  | bytes : ParamType
  | int (n : Nat) : ParamType
  | uint (n : Nat) : ParamType
  | bool : ParamType
  | string : ParamType
  | array (t : ParamType) : ParamType
  | fixedBytes (n : Nat) : ParamType
  | fixedArray (t : ParamType) (n : Nat) : ParamType
  | tuple (ts : List ParamType) : ParamType

/-- One declared event parameter, mirroring `ethabi::EventParam`:
a (possibly empty) name, a type, and the indexed flag. -/
structure EventParam : Type where
  name : String
  kind : ParamType
  indexed : Bool

/-- One ABI event, mirroring `ethabi::Event`: a name, the ordered parameter
list, and the anonymity flag. -/
structure Event : Type where
  name : String
  inputs : List EventParam
  anonymous : Bool

mutual

/-- Modelled from the spec: the canonical string of a parameter type
(standard Solidity type syntax), used to build canonical signatures. -/
def kindString : ParamType → String
  | .address => "address"
  | .bytes => "bytes"
  | .int n => "int" ++ toString n
  | .uint n => "uint" ++ toString n
  | .bool => "bool"
  | .string => "string"
  | .array t => kindString t ++ "[]"
  | .fixedBytes n => "bytes" ++ toString n
  | .fixedArray t n => kindString t ++ "[" ++ toString n ++ "]"
  | .tuple ts => "(" ++ kindStringList ts ++ ")"

/-- Comma-joined canonical strings of a list of parameter types. -/
def kindStringList : List ParamType → String
  | [] => ""
  | [t] => kindString t
  | t :: ts => kindString t ++ "," ++ kindStringList ts

end

/-- Modelled from the spec: the canonical signature of an event
(`EventExt::abi_signature` lives in `ethers-core`, outside the given source):
the event name followed by the parenthesized comma-joined parameter types. -/
def abiSignature (e : Event) : String :=
  e.name ++ "(" ++ kindStringList (e.inputs.map (·.kind)) ++ ")"

mutual

/-- Modelled from the spec: `util::can_derive_defaults` single-type check
(the helper lives outside the given source).  A type is default-derivable
unless it contains a fixed-size array whose declared length exceeds the hard
ceiling of 32 elements. -/
def canDeriveDefault : ParamType → Bool
  | .fixedArray t n => decide (n ≤ 32) && canDeriveDefault t
  | .tuple ts => canDeriveDefaultList ts
  | _ => true

/-- Conjunction of `canDeriveDefault` over a list of types. -/
def canDeriveDefaultList : List ParamType → Bool
  | [] => true
  | t :: ts => canDeriveDefault t && canDeriveDefaultList ts

end

/-- Modelled from the spec: `util::can_derive_defaults` over a parameter
list: every parameter type must be default-derivable. -/
def canDeriveDefaults (params : List ParamType) : Bool :=
  canDeriveDefaultList params

/-- Capitalize the first character of a word, keeping the rest. -/
def capitalizeChars : List Char → List Char
  | [] => []
  | c :: cs => c.toUpper :: cs

/-- Split a character list into the underscore-separated words. -/
def splitUnderscore : List Char → List (List Char)
  | [] => [[]]
  | c :: cs =>
    let rest := splitUnderscore cs
    if c = '_' then [] :: rest
    else
      match rest with
      | [] => [[c]]
      | w :: ws => (c :: w) :: ws

/-- Modelled from the spec: PascalCase conversion (the generator calls
`Inflector::to_pascal_case`): underscore-separated words are capitalized and
joined. -/
def toPascalCase (s : String) : String :=
  String.mk ((splitUnderscore s.toList).map capitalizeChars).flatten

/-- Helper for `toSnakeCase`: each uppercase character after the first is
preceded by an underscore and lowercased. -/
def snakeTail : List Char → List Char
  | [] => []
  | c :: cs =>
    if c.isUpper then '_' :: c.toLower :: snakeTail cs else c :: snakeTail cs

/-- Modelled from the spec: snake_case conversion (the generator calls
`Inflector::to_snake_case`): the first character is lowercased, every later
uppercase character becomes an underscore plus its lowercase form. -/
def toSnakeCase (s : String) : String :=
  match s.toList with
  | [] => ""
  | c :: cs => String.mk (c.toLower :: snakeTail cs)

/-- `event_struct_name` from the source: PascalCase of the alias when one is
present (the event name is ignored), otherwise PascalCase of the event name,
with the fixed suffix `Filter` appended. -/
def event_struct_name (eventName : String) (al : Option String) : String :=
  match al with
  | some id => toPascalCase id ++ "Filter"
  | none => toPascalCase eventName ++ "Filter"

/-- The generation context: the pieces of `Context` the event generator
reads.  `events` is the ABI event table (`abi.events`), a map from event name
to the overloaded events under that name, carried here in its iteration
order; `eventAliases` maps canonical signatures to user aliases; `mapKind`
is the Type Mapper boundary of the spec (section 4.2): it maps one ABI
parameter type to a target-language type expression or fails. -/
structure Context : Type where
  contractIdent : String
  events : List (String × List Event)
  eventAliases : List (String × String)
  eventDerives : List String
  mapKind : ParamType → Except String String

/-- Alias lookup: `self.event_aliases.get(&event.abi_signature())`. -/
def aliasFor (cx : Context) (e : Event) : Option String :=
  cx.eventAliases.lookup (abiSignature e)

/-- A normalized parameter triple produced by the type mapper:
display name, type expression, indexed flag. -/
abbrev ParamTriple : Type := String × String × Bool

/-- Modelled from the spec (section 4.2): the display name of the parameter
at position `i`: unnamed parameters get the positional placeholder name
`p<i>`, named parameters keep their name. -/
def expandParamName (i : Nat) (p : EventParam) : String :=
  if p.name.isEmpty then "p" ++ toString i else p.name

/-- Modelled from the spec (section 4.2): the body of
`types::expand_event_inputs`, mapping parameters from position `i` on.
Order is preserved and the first type-mapping failure aborts. -/
def expandInputsFrom (cx : Context) : Nat → List EventParam → Except String (List ParamTriple)
  | _, [] => .ok []
  | i, p :: ps =>
    match cx.mapKind p.kind with
    | .error err => .error err
    | .ok ty =>
      match expandInputsFrom cx (i + 1) ps with
      | .error err => .error err
      | .ok rest => .ok ((expandParamName i p, ty, p.indexed) :: rest)

/-- Modelled from the spec (section 4.2): `types::expand_event_inputs`
(the type mapper lives outside the given source): one triple per declared
parameter, order preserved, unnamed parameters assigned positional
placeholder names; fails on the first unmappable type. -/
def expandEventInputs (cx : Context) (e : Event) : Except String (List ParamTriple) :=
  expandInputsFrom cx 0 e.inputs

/-- The shape of one generated event data type: a struct with named,
optionally indexed fields, or a tuple with positional, optionally indexed
fields. -/
inductive DataTypeDef : Type
  | structDef (name : String) (fields : List ParamTriple) : DataTypeDef
  | tupleDef (name : String) (fields : List (String × Bool)) : DataTypeDef
deriving DecidableEq

/-- Whether a data type definition is tuple-style. -/
def DataTypeDef.isTuple : DataTypeDef → Bool
  | .tupleDef _ _ => true
  | .structDef _ _ => false

/-- `expand_data_struct` from the source: a struct keeps every triple
(name, type, indexed flag) as a named field. -/
def expand_data_struct (name : String) (params : List ParamTriple) : DataTypeDef :=
  .structDef name params

/-- `expand_data_tuple` from the source: a tuple drops the field names and
keeps (type, indexed flag) per positional field. -/
def expand_data_tuple (name : String) (params : List ParamTriple) : DataTypeDef :=
  .tupleDef name (params.map (fun t => (t.2.1, t.2.2)))

/-- One generated event data type, recording what the `quote!` block of
`expand_event` emits: the resolved type name, the original ABI event name and
canonical signature (attached as `#[ethevent(...)]` metadata), the data type
definition, whether `#[derive(Default)]` is attached, and the pass-through
extra derives. -/
structure EventDef : Type where
  structName : String
  abiName : String
  abiSig : String
  dataDef : DataTypeDef
  deriveDefault : Bool
  derives : List String
deriving DecidableEq

/-- `Context::expand_event` from the source: resolves the alias and type
name, runs the type mapper (propagating its failure), emits a tuple-style
definition when every declared parameter has an empty name and a struct-style
definition otherwise, and attaches `#[derive(Default)]` exactly when
`can_derive_defaults` accepts every parameter type. -/
def expand_event (cx : Context) (e : Event) : Except String EventDef :=
  let al := aliasFor cx e
  let eventName := event_struct_name e.name al
  match expandEventInputs cx e with
  | .error err => .error err
  | .ok params =>
    let allAnonymousFields := e.inputs.all (fun input => input.name.isEmpty)
    let dataTypeDefinition :=
      if allAnonymousFields then expand_data_tuple eventName params
      else expand_data_struct eventName params
    .ok
      { structName := eventName
        abiName := e.name
        abiSig := abiSignature e
        dataDef := dataTypeDefinition
        deriveDefault := canDeriveDefaults (e.inputs.map (·.kind))
        derives := cx.eventDerives }

/-- Lexicographic less-or-equal on character lists, comparing code points;
the order `BTreeMap<String, _>` sorts its keys by. -/
def strLeChars : List Char → List Char → Bool
  | [], _ => true
  | _ :: _, [] => false
  | c :: cs, d :: ds =>
    if c.toNat < d.toNat then true
    else if d.toNat < c.toNat then false
    else strLeChars cs ds

/-- Lexicographic less-or-equal on strings (the `Ord` instance of Rust
strings, restricted to the orderings this model needs). -/
def strLe (a b : String) : Bool :=
  strLeChars a.toList b.toList

/-- Strict lexicographic order on strings. -/
def strLt (a b : String) : Bool :=
  !strLe b a

/-- Ordered insertion of a table entry by its key, the `String` ordering
used by `BTreeMap`. -/
def insertByKey (p : String × List Event) :
    List (String × List Event) → List (String × List Event)
  | [] => [p]
  | q :: qs => if strLe p.1 q.1 then p :: q :: qs else q :: insertByKey p qs

/-- The `BTreeMap` collection step of the source
(`self.abi.events.clone().into_iter().collect()`): the event table sorted by
its key, the event name. -/
def sortEventsTable : List (String × List Event) → List (String × List Event)
  | [] => []
  | p :: ps => insertByKey p (sortEventsTable ps)

/-- The flattened sorted event sequence
(`sorted_events.values().flatten()`). -/
def sortedFlat (cx : Context) : List Event :=
  (sortEventsTable cx.events).flatMap (·.2)

/-- The total number of events across the contract. -/
def numEvents (cx : Context) : Nat :=
  (cx.events.flatMap (·.2)).length

/-- `Context::expand_event_enum_name` from the source: the contract
identifier with the fixed suffix `Events` appended. -/
def expand_event_enum_name (cx : Context) : String :=
  cx.contractIdent ++ "Events"

/-- The generated dispatcher enum declaration: its name and its variant
names in emission order. -/
structure EnumDef : Type where
  name : String
  variants : List String
deriving DecidableEq

/-- `Context::expand_events_enum` from the source: one variant per event of
the raw (unsorted) event table, named by `event_struct_name`; the enum is
named by `expand_event_enum_name`. -/
def expand_events_enum (cx : Context) : EnumDef :=
  { name := expand_event_enum_name cx
    variants :=
      (cx.events.flatMap (·.2)).map (fun e => event_struct_name e.name (aliasFor cx e)) }

/-- Rust `collect::<Result<Vec<_>>>` over a mapped iterator: results are
gathered in order and the first failure aborts with that error. -/
def collectResults {α β : Type} (f : α → Except String β) :
    List α → Except String (List β)
  | [] => .ok []
  | x :: xs =>
    match f x with
    | .error err => .error err
    | .ok y =>
      match collectResults f xs with
      | .error err => .error err
      | .ok ys => .ok (y :: ys)

/-- The output of `events_declaration`: the generated data types in emission
order and the optional dispatcher enum declaration. -/
structure EventsDecl : Type where
  dataTypes : List EventDef
  enumDecl : Option EnumDef
deriving DecidableEq

/-- `Context::events_declaration` from the source: expands every event of
the name-sorted table (first type-mapper failure aborts the whole run), and
appends the dispatcher enum declaration exactly when more than one event is
present. -/
def events_declaration (cx : Context) : Except String EventsDecl :=
  match collectResults (expand_event cx) (sortedFlat cx) with
  | .error err => .error err
  | .ok dataTypes =>
    .ok { dataTypes := dataTypes
          enumDecl :=
            if 1 < (sortedFlat cx).length then some (expand_events_enum cx)
            else none }

/-- `Context::expand_events_method` from the source: with no events nothing
is emitted; with exactly one event the `events()` accessor is typed to that
event's own generated type; with two or more it is typed to the dispatcher
enum.  The value records the type parameter of the emitted accessor. -/
def expand_events_method (cx : Context) : Option String :=
  match sortedFlat cx with
  | [] => none
  | [e] => some (event_struct_name e.name (aliasFor cx e))
  | _ :: _ :: _ => some (expand_event_enum_name cx)

/-- One generated filter accessor: the method name and the event type it is
parameterized by. -/
structure FilterMethod : Type where
  functionName : String
  structName : String
deriving DecidableEq

/-- `Context::expand_filter` from the source: the method name is the
snake_case of the alias when present, otherwise of the event name, with
`_filter` appended; the handle is typed to the event's own generated type. -/
def expand_filter (cx : Context) (e : Event) : FilterMethod :=
  let al := aliasFor cx e
  let functionName :=
    match al with
    | some id => toSnakeCase id ++ "_filter"
    | none => toSnakeCase e.name ++ "_filter"
  { functionName := functionName
    structName := event_struct_name e.name al }

/-- The output of `event_methods`: the per-event filter accessors in sorted
order and the optional `events()` accessor (its type parameter). -/
structure EventMethodsOut : Type where
  filterMethods : List FilterMethod
  eventsMethod : Option String
deriving DecidableEq

/-- `Context::event_methods` from the source: one filter accessor per event
of the name-sorted table, plus the `events()` accessor; always succeeds. -/
def event_methods (cx : Context) : Except String EventMethodsOut :=
  .ok
    { filterMethods := (sortedFlat cx).map (expand_filter cx)
      eventsMethod := expand_events_method cx }

/-- The `ethabi::Error` values the generated decoder can produce; the
emitted fallback is `Error::InvalidData`. -/
inductive AbiError : Type
  | invalidData : AbiError
  | other (msg : String) : AbiError
deriving DecidableEq

/-- One dispatcher variant as the generated `decode_log` sees it: the
variant name and that variant type's own log decoder. -/
structure LogDecoder (L A : Type) : Type where
  name : String
  decode : L → Except AbiError A

/-- The generated `EthLogDecode::decode_log` body emitted by
`expand_events_enum` (the chain of `if let Ok(decoded) = Variant::decode_log(log)`
attempts): each variant decoder is tried in emission order, the first success
is returned tagged with its variant, and if every variant fails the result is
`Error::InvalidData`. -/
def decode_log {L A : Type} : List (LogDecoder L A) → L → Except AbiError (String × A)
  | [], _ => .error .invalidData
  | v :: vs, log =>
    match v.decode log with
    | .ok a => .ok (v.name, a)
    | .error _ => decode_log vs log

/-- The variants whose decoders the generated `decode_log` body actually
runs on a log, in order: every variant up to and including the first
success. -/
def decodeAttempts {L A : Type} : List (LogDecoder L A) → L → List String
  | [], _ => []
  | v :: vs, log =>
    match v.decode log with
    | .ok _ => [v.name]
    | .error _ => v.name :: decodeAttempts vs log

/-- Whether an `Except` result is a success. -/
def resultIsOk {ε β : Type} : Except ε β → Bool
  | .ok _ => true
  | .error _ => false

/-! ### Helper lemmas about the string order and the sorted table -/

theorem strLeChars_refl (l : List Char) : strLeChars l l = true := by
  induction l with
  | nil => rfl
  | cons c cs ih => simp [strLeChars, ih]

theorem strLe_refl (a : String) : strLe a a = true :=
  strLeChars_refl _

theorem strLeChars_total (a b : List Char) :
    strLeChars a b = true ∨ strLeChars b a = true := by
  induction a generalizing b with
  | nil => left; rfl
  | cons c cs ih =>
    cases b with
    | nil => right; rfl
    | cons d ds =>
      rcases Nat.lt_trichotomy c.toNat d.toNat with h | h | h
      · left; simp [strLeChars, h]
      · rcases ih ds with h2 | h2
        · left; simp [strLeChars, h, Nat.lt_irrefl, h2]
        · right; simp [strLeChars, h, Nat.lt_irrefl, h2]
      · right; simp [strLeChars, h]

theorem strLe_total (a b : String) : strLe a b = true ∨ strLe b a = true :=
  strLeChars_total _ _

theorem strLeChars_trans {a b c : List Char} (h1 : strLeChars a b = true)
    (h2 : strLeChars b c = true) : strLeChars a c = true := by
  induction a generalizing b c with
  | nil => rfl
  | cons x xs ih =>
    cases b with
    | nil => simp [strLeChars] at h1
    | cons y ys =>
      cases c with
      | nil => simp [strLeChars] at h2
      | cons z zs =>
        rcases Nat.lt_trichotomy x.toNat y.toNat with hxy | hxy | hxy
        · rcases Nat.lt_trichotomy y.toNat z.toNat with hyz | hyz | hyz
          · simp [strLeChars, Nat.lt_trans hxy hyz]
          · simp [strLeChars, hyz ▸ hxy]
          · simp [strLeChars, hyz, Nat.lt_asymm hyz] at h2
        · rcases Nat.lt_trichotomy y.toNat z.toNat with hyz | hyz | hyz
          · simp [strLeChars, hxy ▸ hyz]
          · have h1' : strLeChars xs ys = true := by
              simpa [strLeChars, hxy, Nat.lt_irrefl] using h1
            have h2' : strLeChars ys zs = true := by
              simpa [strLeChars, hyz, Nat.lt_irrefl] using h2
            simp [strLeChars, hxy.trans hyz, Nat.lt_irrefl, ih h1' h2']
          · simp [strLeChars, hyz, Nat.lt_asymm hyz] at h2
        · simp [strLeChars, hxy, Nat.lt_asymm hxy] at h1

theorem strLe_trans {a b c : String} (h1 : strLe a b = true)
    (h2 : strLe b c = true) : strLe a c = true :=
  strLeChars_trans h1 h2

theorem perm_insertByKey (p : String × List Event) (l : List (String × List Event)) :
    List.Perm (insertByKey p l) (p :: l) := by
  induction l with
  | nil => exact List.Perm.refl _
  | cons q qs ih =>
    by_cases h : strLe p.1 q.1 = true
    · simp [insertByKey, h]
    · simp only [insertByKey, h, if_neg, Bool.false_eq_true, not_false_iff, ite_false]
      exact (ih.cons q).trans (List.Perm.swap p q qs)

theorem perm_sortEventsTable (t : List (String × List Event)) :
    List.Perm (sortEventsTable t) t := by
  induction t with
  | nil => exact List.Perm.refl _
  | cons p ps ih => exact (perm_insertByKey p _).trans (ih.cons p)

theorem mem_of_mem_sortEventsTable {t : List (String × List Event)}
    {p : String × List Event} (h : p ∈ sortEventsTable t) : p ∈ t :=
  (perm_sortEventsTable t).mem_iff.mp h

theorem sortedFlat_length (cx : Context) : (sortedFlat cx).length = numEvents cx := by
  have h := ((perm_sortEventsTable cx.events).flatMap_right (fun p => p.2)).length_eq
  simpa [sortedFlat, numEvents] using h

theorem pairwise_insertByKey {p : String × List Event}
    {l : List (String × List Event)}
    (h : l.Pairwise (fun a b => strLe a.1 b.1 = true)) :
    (insertByKey p l).Pairwise (fun a b => strLe a.1 b.1 = true) := by
  induction l with
  | nil => simp [insertByKey]
  | cons q qs ih =>
    rcases List.pairwise_cons.mp h with ⟨hq, hqs⟩
    by_cases hle : strLe p.1 q.1 = true
    · simp only [insertByKey, hle, ite_true]
      refine List.Pairwise.cons ?_ h
      intro b hb
      rcases List.mem_cons.mp hb with rfl | hb
      · exact hle
      · exact strLe_trans hle (hq b hb)
    · have hqp : strLe q.1 p.1 = true := (strLe_total p.1 q.1).resolve_left hle
      simp only [insertByKey, hle, Bool.false_eq_true, not_false_iff, ite_false]
      refine List.Pairwise.cons ?_ (ih hqs)
      intro b hb
      rcases List.mem_cons.mp ((perm_insertByKey p qs).mem_iff.mp hb) with rfl | hb2
      · exact hqp
      · exact hq b hb2

theorem pairwise_sortEventsTable (t : List (String × List Event)) :
    (sortEventsTable t).Pairwise (fun a b => strLe a.1 b.1 = true) := by
  induction t with
  | nil => simp [sortEventsTable]
  | cons p ps ih => exact pairwise_insertByKey ih

theorem pairwise_names_flatMap {t : List (String × List Event)}
    (hs : t.Pairwise (fun a b => strLe a.1 b.1 = true))
    (hw : ∀ p ∈ t, ∀ e ∈ p.2, e.name = p.1) :
    ((t.flatMap (·.2)).map (·.name)).Pairwise (fun a b => strLe a b = true) := by
  induction t with
  | nil => simp
  | cons p ps ih =>
    rcases List.pairwise_cons.mp hs with ⟨hp, hps⟩
    have hwp : ∀ e ∈ p.2, e.name = p.1 := hw p (List.mem_cons_self p ps)
    have hw' : ∀ q ∈ ps, ∀ e ∈ q.2, e.name = q.1 :=
      fun q hq => hw q (List.mem_cons_of_mem p hq)
    simp only [List.flatMap_cons, List.map_append]
    rw [List.pairwise_append]
    refine ⟨?_, ih hps hw', ?_⟩
    · rw [List.pairwise_map]
      refine List.pairwise_of_forall_mem_list ?_
      intro a ha b hb
      rw [hwp a ha, hwp b hb]
      exact strLe_refl _
    · intro a ha b hb
      rcases List.mem_map.mp ha with ⟨ea, hea, rfl⟩
      rcases List.mem_map.mp hb with ⟨eb, heb, rfl⟩
      rcases List.mem_flatMap.mp heb with ⟨q, hq, heq⟩
      rw [hwp ea hea, hw' q hq eb heq]
      exact hp q hq

/-! ### Helper lemmas about result collection and expansion -/

theorem expand_event_of_inputs_ok {cx : Context} {e : Event}
    {ps : List ParamTriple} (h : expandEventInputs cx e = .ok ps) :
    expand_event cx e =
      .ok
        { structName := event_struct_name e.name (aliasFor cx e)
          abiName := e.name
          abiSig := abiSignature e
          dataDef :=
            if e.inputs.all (fun input => input.name.isEmpty) then
              expand_data_tuple (event_struct_name e.name (aliasFor cx e)) ps
            else expand_data_struct (event_struct_name e.name (aliasFor cx e)) ps
          deriveDefault := canDeriveDefaults (e.inputs.map (·.kind))
          derives := cx.eventDerives } := by
  simp [expand_event, h]

theorem expand_event_of_inputs_error {cx : Context} {e : Event} {err : String}
    (h : expandEventInputs cx e = .error err) :
    expand_event cx e = .error err := by
  simp [expand_event, h]

theorem collectResults_ok_of_all {α β : Type} {f : α → Except String β}
    {l : List α} (h : ∀ x ∈ l, resultIsOk (f x) = true) :
    ∃ ys, collectResults f l = .ok ys := by
  induction l with
  | nil => exact ⟨[], rfl⟩
  | cons x xs ih =>
    have hx := h x (List.mem_cons_self x xs)
    rcases ih (fun z hz => h z (List.mem_cons_of_mem x hz)) with ⟨ys, hys⟩
    cases hfx : f x with
    | error err => rw [hfx] at hx; simp [resultIsOk] at hx
    | ok y => exact ⟨y :: ys, by simp [collectResults, hfx, hys]⟩

theorem collectResults_error_at {α β : Type} {f : α → Except String β}
    {pre : List α} {x : α} {post : List α} {err : String}
    (hpre : ∀ z ∈ pre, resultIsOk (f z) = true) (hx : f x = .error err) :
    collectResults f (pre ++ x :: post) = .error err := by
  induction pre with
  | nil => simp [collectResults, hx]
  | cons z zs ih =>
    have hz := hpre z (List.mem_cons_self z zs)
    cases hfz : f z with
    | error e2 => rw [hfz] at hz; simp [resultIsOk] at hz
    | ok y =>
      have := ih (fun w hw => hpre w (List.mem_cons_of_mem z hw))
      simp [collectResults, hfz, this]

theorem collectResults_map_eq {α β γ : Type} {f : α → Except String β}
    {g : β → γ} {h : α → γ} (hfg : ∀ x y, f x = .ok y → g y = h x) :
    ∀ {l : List α} {ys : List β}, collectResults f l = .ok ys →
      ys.map g = l.map h := by
  intro l
  induction l with
  | nil =>
    intro ys hys
    simp [collectResults] at hys
    simp [← hys]
  | cons x xs ih =>
    intro ys hys
    cases hfx : f x with
    | error err => simp [collectResults, hfx] at hys
    | ok y =>
      cases hrest : collectResults f xs with
      | error err => simp [collectResults, hfx, hrest] at hys
      | ok zs =>
        simp [collectResults, hfx, hrest] at hys
        subst hys
        simp [hfg x y hfx, ih hrest]

theorem canDeriveDefaultList_append (l1 l2 : List ParamType) :
    canDeriveDefaultList (l1 ++ l2) =
      (canDeriveDefaultList l1 && canDeriveDefaultList l2) := by
  induction l1 with
  | nil => simp [canDeriveDefaultList]
  | cons t ts ih => simp [canDeriveDefaultList, ih, Bool.and_assoc]

theorem expand_event_abiName {cx : Context} {e : Event} {d : EventDef}
    (h : expand_event cx e = .ok d) : d.abiName = e.name := by
  cases hin : expandEventInputs cx e with
  | error err => rw [expand_event_of_inputs_error hin] at h; cases h
  | ok ps => rw [expand_event_of_inputs_ok hin] at h; cases h; rfl

theorem expand_event_abiSig {cx : Context} {e : Event} {d : EventDef}
    (h : expand_event cx e = .ok d) : d.abiSig = abiSignature e := by
  cases hin : expandEventInputs cx e with
  | error err => rw [expand_event_of_inputs_error hin] at h; cases h
  | ok ps => rw [expand_event_of_inputs_ok hin] at h; cases h; rfl

theorem expand_event_isOk_of_inputs {cx : Context} {e : Event}
    (h : resultIsOk (expandEventInputs cx e) = true) :
    resultIsOk (expand_event cx e) = true := by
  cases hin : expandEventInputs cx e with
  | error err => rw [hin] at h; simp [resultIsOk] at h
  | ok ps => rw [expand_event_of_inputs_ok hin]; rfl

theorem expand_events_method_of_zero (cx : Context) (h : numEvents cx = 0) :
    expand_events_method cx = none := by
  have hl : (sortedFlat cx).length = 0 := by rw [sortedFlat_length, h]
  have hnil : sortedFlat cx = [] := List.length_eq_zero.mp hl
  simp [expand_events_method, hnil]

theorem expand_events_method_of_single {cx : Context} {e : Event}
    (h : sortedFlat cx = [e]) :
    expand_events_method cx = some (event_struct_name e.name (aliasFor cx e)) := by
  simp [expand_events_method, h]

theorem expand_events_method_of_two_le (cx : Context) (h : 2 ≤ numEvents cx) :
    expand_events_method cx = some (expand_event_enum_name cx) := by
  have hl : 2 ≤ (sortedFlat cx).length := by rw [sortedFlat_length]; exact h
  cases hs : sortedFlat cx with
  | nil => rw [hs] at hl; simp at hl
  | cons a l =>
    cases l with
    | nil => rw [hs] at hl; simp at hl
    | cons b l2 => simp [expand_events_method, hs]

theorem expandInputsFrom_spec (cx : Context) (l : List EventParam) :
    ∀ (k : Nat) (ps : List ParamTriple),
      expandInputsFrom cx k l = .ok ps →
      ps.length = l.length ∧
      ∀ i (hi : i < l.length) (hp : i < ps.length),
        (ps.get ⟨i, hp⟩).1 = expandParamName (k + i) (l.get ⟨i, hi⟩) := by
  induction l with
  | nil =>
    intro k ps h
    simp [expandInputsFrom] at h
    subst h
    exact ⟨rfl, fun i hi => by simp at hi⟩
  | cons p rest ih =>
    intro k ps h
    cases hmk : cx.mapKind p.kind with
    | error err => simp [expandInputsFrom, hmk] at h
    | ok ty =>
      cases hrec : expandInputsFrom cx (k + 1) rest with
      | error err => simp [expandInputsFrom, hmk, hrec] at h
      | ok rs =>
        simp [expandInputsFrom, hmk, hrec] at h
        subst h
        obtain ⟨hlen, hnames⟩ := ih (k + 1) rs hrec
        refine ⟨by simp [hlen], ?_⟩
        intro i hi hp
        cases i with
        | zero => simp [List.get]
        | succ j =>
          have hj : j < rest.length := by simpa using hi
          have hpj : j < rs.length := by simpa using hp
          have hkj : k + 1 + j = k + (j + 1) := by omega
          have := hnames j hj hpj
          rw [hkj] at this
          simpa [List.get] using this

/-! ### Concrete fixtures

Contexts and events used to evaluate the development on concrete inputs,
mirroring the unit-test fixtures of the source file (`TestToken`, the
`Transfer(address,address,uint256)` event and its `TransferEvent` alias). -/

/-- A concrete type mapper covering the parameter types the fixtures use. -/
def simpleMapper : ParamType → Except String String
  | .address => .ok "Address"
  | .bool => .ok "bool"
  | .uint n => .ok ("U" ++ toString n)
  | .fixedArray _ n => .ok ("Arr" ++ toString n)
  | _ => .error "unsupported type"

/-- The `Transfer(address,address,uint256)` event of the source's tests. -/
def transferEvent : Event :=
  { name := "Transfer"
    inputs :=
      [ { name := "from", kind := .address, indexed := true }
      , { name := "to", kind := .address, indexed := true }
      , { name := "amount", kind := .uint 256, indexed := false } ]
    anonymous := false }

/-- The `Approval(address,address,uint256)` event of the spec's example. -/
def approvalEvent : Event :=
  { name := "Approval"
    inputs :=
      [ { name := "owner", kind := .address, indexed := true }
      , { name := "spender", kind := .address, indexed := true }
      , { name := "value", kind := .uint 256, indexed := false } ]
    anonymous := false }

/-- A context with no events. -/
def cxEmpty : Context :=
  { contractIdent := "TestToken"
    events := []
    eventAliases := []
    eventDerives := []
    mapKind := simpleMapper }

/-- A context with one event and no alias. -/
def cxNoAlias : Context :=
  { cxEmpty with events := [("Transfer", [transferEvent])] }

/-- A context aliasing `Transfer(address,address,uint256)` to
`TransferEvent`. -/
def cxAlias : Context :=
  { cxNoAlias with
    eventAliases := [("Transfer(address,address,uint256)", "TransferEvent")] }

/-- A context with two events. -/
def cxTwo : Context :=
  { cxEmpty with
    events := [("Transfer", [transferEvent]), ("Approval", [approvalEvent])] }

/-- The successful generation output for `cxTwo`. -/
def outTwo : EventsDecl :=
  match events_declaration cxTwo with
  | .ok o => o
  | .error _ => ⟨[], none⟩

/-- An event mixing one named and one unnamed parameter. -/
def mixedEvent : Event :=
  { name := "Foo"
    inputs :=
      [ { name := "a", kind := .bool, indexed := false }
      , { name := "", kind := .address, indexed := false } ]
    anonymous := false }

/-- A context carrying `mixedEvent`. -/
def cxMixed : Context :=
  { cxEmpty with events := [("Foo", [mixedEvent])] }

/-- The parameter triples the type mapper yields for `mixedEvent`. -/
def psMixed : List ParamTriple :=
  [("a", "bool", false), ("p1", "Address", false)]

/-- An event whose single parameter the failing mapper cannot handle. -/
def failEvent : Event :=
  { name := "Bad"
    inputs := [{ name := "x", kind := .bytes, indexed := false }]
    anonymous := false }

/-- A context on which the type mapper fails. -/
def cxFail : Context :=
  { cxEmpty with events := [("Bad", [failEvent])] }

/-- An event with a fixed-size array of length 32 (default-derivable). -/
def arrayEvent : Event :=
  { name := "Arr"
    inputs := [{ name := "xs", kind := .fixedArray .bool 32, indexed := false }]
    anonymous := false }

/-- A context carrying `arrayEvent`. -/
def cxArray : Context :=
  { cxEmpty with events := [("Arr", [arrayEvent])] }

/-- Overloaded `Foo` events: `Foo(uint256)` declared before `Foo(address)`,
although `Foo(address)` is the lexicographically smaller signature. -/
def fooUintEvent : Event :=
  { name := "Foo"
    inputs := [{ name := "a", kind := .uint 256, indexed := false }]
    anonymous := false }

/-- The `Foo(address)` overload. -/
def fooAddrEvent : Event :=
  { name := "Foo"
    inputs := [{ name := "a", kind := .address, indexed := false }]
    anonymous := false }

/-- A context whose single table entry holds both `Foo` overloads in
declaration order, with aliases keeping the two variant names distinct. -/
def cxOverload : Context :=
  { contractIdent := "Test"
    events := [("Foo", [fooUintEvent, fooAddrEvent])]
    eventAliases := [("Foo(uint256)", "FooU"), ("Foo(address)", "FooA")]
    eventDerives := []
    mapKind := simpleMapper }

/-- The canonical signatures of the data types `events_declaration` emits
for `cxOverload`, in emission order. -/
def sigListOverload : List String :=
  match events_declaration cxOverload with
  | .ok o => o.dataTypes.map EventDef.abiSig
  | .error _ => []

/-- A variant decoder that always fails. -/
def decA : LogDecoder Nat Nat :=
  { name := "A", decode := fun _ => .error .invalidData }

/-- A variant decoder that always succeeds with the log itself. -/
def decB : LogDecoder Nat Nat :=
  { name := "B", decode := fun log => .ok log }

/-! ### Claim theorems -/

/-- C1: the dispatcher enum's generated `decode_log` tries each variant's
decoder sequentially in the variants' emission order and returns the first
success wrapped in `Ok`: a log that only the second variant can decode is
still attempted against the first variant's decoder (the attempt trace is
both variant names, in order) before succeeding on the second, and when
every variant's decoder fails the result is the `InvalidData` error. -/
theorem decode_log_first_match {L A : Type} (v0 v1 : LogDecoder L A)
    (rest : List (LogDecoder L A)) (log : L) (e0 : AbiError) (a : A)
    (h0 : v0.decode log = .error e0) (h1 : v1.decode log = .ok a) :
    decode_log (v0 :: v1 :: rest) log = .ok (v1.name, a) ∧
      decodeAttempts (v0 :: v1 :: rest) log = [v0.name, v1.name] ∧
      ∀ (vs : List (LogDecoder L A)) (l2 : L),
        (∀ v ∈ vs, ∃ e2, v.decode l2 = .error e2) →
        decode_log vs l2 = .error .invalidData := by
  refine ⟨by simp [decode_log, h0, h1], by simp [decodeAttempts, h0, h1], ?_⟩
  intro vs l2 hall
  induction vs with
  | nil => rfl
  | cons v vs2 ih =>
    obtain ⟨e2, he2⟩ := hall v (List.mem_cons_self v vs2)
    have := ih (fun w hw => hall w (List.mem_cons_of_mem v hw))
    simp [decode_log, he2, this]

/-- Witness for C1 at a concrete decoder list: the first variant fails, the
second succeeds, the dispatcher returns the second tagged result and the
attempt trace shows the first variant was tried first; on a decoder list
that always fails, the result is `InvalidData`. -/
theorem decode_log_first_match_witness :
    decA.decode 7 = .error .invalidData ∧ decB.decode 7 = .ok 7 ∧
      decode_log [decA, decB] 7 = .ok ("B", 7) ∧
      decodeAttempts [decA, decB] 7 = ["A", "B"] ∧
      decode_log [decA] 7 = .error .invalidData := by
  have h := decode_log_first_match decA decB [] 7 .invalidData 7 rfl rfl
  exact ⟨rfl, rfl, h.1, h.2.1,
    h.2.2 [decA] 7 (by intro v hv; simp at hv; subst hv; exact ⟨.invalidData, rfl⟩)⟩

/-- C5: in a successful run the dispatcher enum declaration is emitted if
and only if the total number of events across the contract is strictly
greater than one; with zero or one event no enum declaration is emitted. -/
theorem events_enum_iff_multiple_events (cx : Context) (out : EventsDecl)
    (h : events_declaration cx = .ok out) :
    (out.enumDecl = some (expand_events_enum cx) ↔ 1 < numEvents cx) ∧
    (out.enumDecl = none ↔ numEvents cx ≤ 1) := by
  cases hc : collectResults (expand_event cx) (sortedFlat cx) with
  | error err => rw [events_declaration, hc] at h; cases h
  | ok ds =>
    rw [events_declaration, hc] at h
    cases h
    by_cases h1 : 1 < (sortedFlat cx).length
    · have h2 : 1 < numEvents cx := by rw [← sortedFlat_length cx]; exact h1
      simp [h1, h2]
    · have h2 : numEvents cx ≤ 1 := by
        rw [← sortedFlat_length cx]; omega
      have h3 : ¬1 < numEvents cx := by omega
      simp [h1, h2, h3]

/-- Witness for C5: on the two-event context the enum declaration is
emitted; on the one-event context it is not. -/
theorem events_enum_iff_multiple_events_witness :
    events_declaration cxTwo = .ok outTwo ∧
      (outTwo.enumDecl = some (expand_events_enum cxTwo) ↔ 1 < numEvents cxTwo) ∧
      (outTwo.enumDecl = none ↔ numEvents cxTwo ≤ 1) :=
  ⟨rfl, events_enum_iff_multiple_events cxTwo outTwo rfl⟩

/-- C9: generation is deterministic: `events_declaration` and
`event_methods` are pure functions, so two runs on the same ABI event table
and alias table (the same `Context`) produce identical output. -/
theorem generation_deterministic (cx1 cx2 : Context) (h : cx1 = cx2) :
    events_declaration cx1 = events_declaration cx2 ∧
      event_methods cx1 = event_methods cx2 := by
  subst h; exact ⟨rfl, rfl⟩

/-- Witness for C9: two runs on the two-event context agree. -/
theorem generation_deterministic_witness :
    cxTwo = cxTwo ∧
      events_declaration cxTwo = events_declaration cxTwo ∧
      event_methods cxTwo = event_methods cxTwo :=
  ⟨rfl, generation_deterministic cxTwo cxTwo rfl⟩

/-- C10: the dispatcher union type's name is always the contract identifier
with the fixed suffix `Events` appended: this is the name
`expand_event_enum_name` resolves, the name the emitted enum declaration
carries, and the type the `events()` accessor is parameterized by whenever
at least two events exist. -/
theorem enum_name_is_contract_events (cx : Context) :
    expand_event_enum_name cx = cx.contractIdent ++ "Events" ∧
      (expand_events_enum cx).name = cx.contractIdent ++ "Events" ∧
      (2 ≤ numEvents cx →
        expand_events_method cx = some (cx.contractIdent ++ "Events")) := by
  refine ⟨rfl, rfl, ?_⟩
  intro h
  rw [expand_events_method_of_two_le cx h]; rfl

/-- Witness for C10 on the two-event context. -/
theorem enum_name_is_contract_events_witness :
    2 ≤ numEvents cxTwo ∧
      expand_event_enum_name cxTwo = "TestToken" ++ "Events" ∧
      (expand_events_enum cxTwo).name = "TestToken" ++ "Events" ∧
      expand_events_method cxTwo = some ("TestToken" ++ "Events") := by
  have h := enum_name_is_contract_events cxTwo
  exact ⟨by decide, h.1, h.2.1, h.2.2 (by decide)⟩

/-- C4: the `events()` accessor is emitted once per contract and which type
parameterizes it depends only on the event count: with zero events no
accessor is emitted (`none`, a valid outcome, not an error); with exactly
one event it is typed to that event's own generated type; with two or more
events it is typed to the dispatcher union type. -/
theorem events_method_by_event_count (cx : Context) :
    (numEvents cx = 0 → expand_events_method cx = none) ∧
      (numEvents cx = 1 → ∃ e, sortedFlat cx = [e] ∧
        expand_events_method cx = some (event_struct_name e.name (aliasFor cx e))) ∧
      (2 ≤ numEvents cx →
        expand_events_method cx = some (expand_event_enum_name cx)) := by
  refine ⟨expand_events_method_of_zero cx, ?_, expand_events_method_of_two_le cx⟩
  intro h1
  have hl : (sortedFlat cx).length = 1 := by rw [sortedFlat_length, h1]
  obtain ⟨e, he⟩ := List.length_eq_one.mp hl
  exact ⟨e, he, expand_events_method_of_single he⟩

/-- Witness for C4 at zero-, one- and two-event contexts. -/
theorem events_method_by_event_count_witness :
    (numEvents cxEmpty = 0 ∧ expand_events_method cxEmpty = none) ∧
      (numEvents cxNoAlias = 1 ∧ ∃ e, sortedFlat cxNoAlias = [e] ∧
        expand_events_method cxNoAlias =
          some (event_struct_name e.name (aliasFor cxNoAlias e))) ∧
      (2 ≤ numEvents cxTwo ∧
        expand_events_method cxTwo = some (expand_event_enum_name cxTwo)) :=
  ⟨⟨rfl, (events_method_by_event_count cxEmpty).1 rfl⟩,
   ⟨rfl, (events_method_by_event_count cxNoAlias).2.1 rfl⟩,
   ⟨by decide, (events_method_by_event_count cxTwo).2.2 (by decide)⟩⟩

/-- C6: name resolution is a pure function of the event name and the
optional alias: the generated type name is the PascalCase of the
alias-or-event-name with the fixed suffix `Filter` appended (the alias,
when present, replaces the event name entirely), and the filter-method name
is the snake_case of the alias-or-event-name with `_filter` appended; in
particular `Transfer(address,address,uint256)` without an alias yields
`transfer_filter` and `TransferFilter`, and with the alias `TransferEvent`
yields `transfer_event_filter` and `TransferEventFilter`. -/
theorem event_name_resolution :
    (∀ n, event_struct_name n none = toPascalCase n ++ "Filter") ∧
      (∀ n al, event_struct_name n (some al) = toPascalCase al ++ "Filter") ∧
      (∀ cx e, (expand_filter cx e).structName =
        event_struct_name e.name (aliasFor cx e)) ∧
      (∀ cx e, (expand_filter cx e).functionName =
        toSnakeCase ((aliasFor cx e).getD e.name) ++ "_filter") ∧
      expand_filter cxNoAlias transferEvent =
        { functionName := "transfer_filter", structName := "TransferFilter" } ∧
      expand_filter cxAlias transferEvent =
        { functionName := "transfer_event_filter"
          structName := "TransferEventFilter" } := by
  refine ⟨fun n => rfl, fun n al => rfl, fun cx e => rfl, ?_, by decide, by decide⟩
  intro cx e
  cases h : aliasFor cx e <;> simp [expand_filter, h]

/-- C3: `expand_event` emits a tuple-style type definition exactly when
every declared parameter has an empty name (so also for an empty parameter
list), and a struct-style definition whenever at least one parameter is
named; mixed lists therefore produce a struct, and unnamed parameters carry
the positional placeholder name `p<index>` produced by the type mapper. -/
theorem expand_event_tuple_iff_all_unnamed (cx : Context) (e : Event)
    (ps : List ParamTriple) (h : expandEventInputs cx e = .ok ps) :
    ∃ d, expand_event cx e = .ok d ∧
      d.dataDef.isTuple = e.inputs.all (fun p => p.name.isEmpty) ∧
      (e.inputs.all (fun p => p.name.isEmpty) = false →
        d.dataDef = .structDef (event_struct_name e.name (aliasFor cx e)) ps) ∧
      (e.inputs.all (fun p => p.name.isEmpty) = true →
        d.dataDef = .tupleDef (event_struct_name e.name (aliasFor cx e))
          (ps.map (fun t => (t.2.1, t.2.2)))) ∧
      ps.length = e.inputs.length ∧
      ∀ i (hi : i < e.inputs.length) (hp : i < ps.length),
        (ps.get ⟨i, hp⟩).1 = expandParamName i (e.inputs.get ⟨i, hi⟩) := by
  obtain ⟨hlen, hnames⟩ := expandInputsFrom_spec cx e.inputs 0 ps h
  refine ⟨_, expand_event_of_inputs_ok h, ?_, ?_, ?_, hlen, ?_⟩
  · cases hall : e.inputs.all (fun p => p.name.isEmpty) <;>
      simp [hall, expand_data_tuple, expand_data_struct, DataTypeDef.isTuple]
  · intro hall; simp [hall, expand_data_struct]
  · intro hall; simp [hall, expand_data_tuple]
  · intro i hi hp; simpa using hnames i hi hp

/-- Witness for C3 at a mixed named/unnamed parameter list: the type mapper
succeeds, the emitted definition is a struct, and the unnamed parameter at
position 1 is named `p1`. -/
theorem expand_event_tuple_iff_all_unnamed_witness :
    expandEventInputs cxMixed mixedEvent = .ok psMixed ∧
      (∃ d, expand_event cxMixed mixedEvent = .ok d ∧
        d.dataDef.isTuple = mixedEvent.inputs.all (fun p => p.name.isEmpty) ∧
        (mixedEvent.inputs.all (fun p => p.name.isEmpty) = false →
          d.dataDef = .structDef
            (event_struct_name mixedEvent.name (aliasFor cxMixed mixedEvent)) psMixed) ∧
        (mixedEvent.inputs.all (fun p => p.name.isEmpty) = true →
          d.dataDef = .tupleDef
            (event_struct_name mixedEvent.name (aliasFor cxMixed mixedEvent))
            (psMixed.map (fun t => (t.2.1, t.2.2)))) ∧
        psMixed.length = mixedEvent.inputs.length ∧
        ∀ i (hi : i < mixedEvent.inputs.length) (hp : i < psMixed.length),
          (psMixed.get ⟨i, hp⟩).1 =
            expandParamName i (mixedEvent.inputs.get ⟨i, hi⟩)) :=
  ⟨rfl, expand_event_tuple_iff_all_unnamed cxMixed mixedEvent psMixed rfl⟩

/-- C7: the derive-eligibility check attaches the Default derive exactly
when no parameter disqualifies it: any parameter list containing a
fixed-size array of declared length 33 (over the hard ceiling of 32) of any
element type is rejected, while the same list with that length reduced to
32 is accepted provided nothing else disqualifies it; `expand_event`
records exactly this verdict as its derive-Default flag. -/
theorem derive_default_eligibility (cx : Context) (e : Event)
    (ps : List ParamTriple) (t : ParamType) (pre post : List ParamType)
    (h : expandEventInputs cx e = .ok ps) :
    (∃ d, expand_event cx e = .ok d ∧
      d.deriveDefault = canDeriveDefaults (e.inputs.map (·.kind))) ∧
      canDeriveDefaults (pre ++ ParamType.fixedArray t 33 :: post) = false ∧
      (canDeriveDefaults (pre ++ post) = true → canDeriveDefault t = true →
        canDeriveDefaults (pre ++ ParamType.fixedArray t 32 :: post) = true) := by
  refine ⟨⟨_, expand_event_of_inputs_ok h, rfl⟩, ?_, ?_⟩
  · simp [canDeriveDefaults, canDeriveDefaultList_append, canDeriveDefaultList,
      canDeriveDefault]
  · intro hok ht
    rw [canDeriveDefaults, canDeriveDefaultList_append] at hok
    rw [canDeriveDefaults, canDeriveDefaultList_append]
    simp only [canDeriveDefaultList, canDeriveDefault, ht] at hok ⊢
    simp only [Bool.and_eq_true] at hok ⊢
    exact ⟨hok.1, by simp, hok.2⟩

/-- Witness for C7: the length-32 fixed-array event is accepted (Default is
derived), the length-33 list is rejected. -/
theorem derive_default_eligibility_witness :
    expandEventInputs cxArray arrayEvent = .ok [("xs", "Arr32", false)] ∧
      (∃ d, expand_event cxArray arrayEvent = .ok d ∧
        d.deriveDefault = canDeriveDefaults (arrayEvent.inputs.map (·.kind))) ∧
      canDeriveDefaults ([] ++ ParamType.fixedArray .bool 33 :: [.address]) = false ∧
      (canDeriveDefaults ([] ++ [.address]) = true → canDeriveDefault .bool = true →
        canDeriveDefaults ([] ++ ParamType.fixedArray .bool 32 :: [.address]) = true) ∧
      canDeriveDefaults (arrayEvent.inputs.map (·.kind)) = true := by
  have h := derive_default_eligibility cxArray arrayEvent
    [("xs", "Arr32", false)] .bool [] [.address] rfl
  exact ⟨rfl, h.1, h.2.1, h.2.2, by decide⟩

/-- C8: type-mapper failures propagate outward unchanged: if
`expand_event_inputs` fails for an event then `expand_event` fails with the
same error, and `events_declaration` fails with that error whenever the
failing event is reached (every earlier event in emission order having
succeeded), producing no partial output; if the type mapper succeeds for
every event, generation fully succeeds. -/
theorem type_mapper_error_propagation (cx : Context) (e : Event) (err : String)
    (pre post : List Event) :
    (expandEventInputs cx e = .error err → expand_event cx e = .error err) ∧
      (sortedFlat cx = pre ++ e :: post →
        (∀ e2 ∈ pre, resultIsOk (expand_event cx e2) = true) →
        expandEventInputs cx e = .error err →
        events_declaration cx = .error err) ∧
      ((∀ e2 ∈ sortedFlat cx, resultIsOk (expandEventInputs cx e2) = true) →
        ∃ out, events_declaration cx = .ok out) := by
  refine ⟨expand_event_of_inputs_error, ?_, ?_⟩
  · intro hsplit hpre hin
    have he : expand_event cx e = .error err := expand_event_of_inputs_error hin
    have hc : collectResults (expand_event cx) (sortedFlat cx) = .error err := by
      rw [hsplit]
      exact collectResults_error_at hpre he
    simp [events_declaration, hc]
  · intro hall
    obtain ⟨ys, hys⟩ := collectResults_ok_of_all
      (fun e2 he2 => expand_event_isOk_of_inputs (hall e2 he2))
    refine ⟨⟨ys, if 1 < (sortedFlat cx).length then some (expand_events_enum cx)
      else none⟩, ?_⟩
    simp [events_declaration, hys]

/-- Witness for C8: on the failing context the original mapper error
surfaces unchanged from `events_declaration`; on the two-event context
generation fully succeeds. -/
theorem type_mapper_error_propagation_witness :
    expandEventInputs cxFail failEvent = .error "unsupported type" ∧
      sortedFlat cxFail = [] ++ failEvent :: [] ∧
      expand_event cxFail failEvent = .error "unsupported type" ∧
      events_declaration cxFail = .error "unsupported type" ∧
      (∃ out, events_declaration cxTwo = .ok out) := by
  have h := type_mapper_error_propagation cxFail failEvent "unsupported type" [] []
  have h2 := type_mapper_error_propagation cxTwo failEvent "x" [] []
  refine ⟨rfl, rfl, h.1 rfl, h.2.1 rfl (by intro e2 he2; simp at he2) rfl,
    h2.2.2 (by decide)⟩

/-- C2 counterexample: the claim that the generated event type definitions
and the dispatcher enum variants are ordered lexicographically by canonical
signature fails on overloaded events.  For a table entry holding
`Foo(uint256)` before `Foo(address)` in declaration order, generation
succeeds and emits the `Foo(uint256)` definition (and its enum variant)
first, although `Foo(address)` is the strictly smaller signature. -/
theorem emission_order_not_by_signature_cex :
    sigListOverload = ["Foo(uint256)", "Foo(address)"] ∧
      strLt "Foo(address)" "Foo(uint256)" = true ∧
      (expand_events_enum cxOverload).variants = ["FooUFilter", "FooAFilter"] := by
  refine ⟨by decide, by decide, by decide⟩

/-- C2 amended: the generated event type definitions are ordered by the
events' names (the event-table keys), lexicographically nondecreasing, with
overloaded events under one name kept in their stored declaration order —
not by canonical signature; the dispatcher enum's variant list follows the
raw event-table iteration order, unsorted. -/
theorem emission_order_by_event_name (cx : Context) (out : EventsDecl)
    (h : events_declaration cx = .ok out)
    (hw : ∀ p ∈ cx.events, ∀ e ∈ p.2, e.name = p.1) :
    (out.dataTypes.map (·.abiName)).Pairwise (fun a b => strLe a b = true) ∧
      out.dataTypes.map (·.abiSig) = (sortedFlat cx).map abiSignature ∧
      (expand_events_enum cx).variants =
        (cx.events.flatMap (·.2)).map
          (fun e => event_struct_name e.name (aliasFor cx e)) := by
  cases hc : collectResults (expand_event cx) (sortedFlat cx) with
  | error err => rw [events_declaration, hc] at h; cases h
  | ok ds =>
    rw [events_declaration, hc] at h
    cases h
    have hnames : ds.map (·.abiName) = (sortedFlat cx).map (·.name) :=
      collectResults_map_eq (fun x y hxy => expand_event_abiName hxy) hc
    have hsigs : ds.map (·.abiSig) = (sortedFlat cx).map abiSignature :=
      collectResults_map_eq (fun x y hxy => expand_event_abiSig hxy) hc
    refine ⟨?_, hsigs, rfl⟩
    rw [hnames]
    exact pairwise_names_flatMap (pairwise_sortEventsTable cx.events)
      (fun p hp => hw p (mem_of_mem_sortEventsTable hp))

/-- Witness for the amended C2 on the two-event context: generation
succeeds, the emitted names are in nondecreasing order, and the emitted
signatures follow the name-sorted flattened table. -/
theorem emission_order_by_event_name_witness :
    events_declaration cxTwo = .ok outTwo ∧
      (∀ p ∈ cxTwo.events, ∀ e ∈ p.2, e.name = p.1) ∧
      (outTwo.dataTypes.map (·.abiName)).Pairwise (fun a b => strLe a b = true) ∧
      outTwo.dataTypes.map (·.abiSig) = (sortedFlat cxTwo).map abiSignature ∧
      (expand_events_enum cxTwo).variants =
        (cxTwo.events.flatMap (·.2)).map
          (fun e => event_struct_name e.name (aliasFor cxTwo e)) := by
  have h := emission_order_by_event_name cxTwo outTwo rfl (by decide)
  exact ⟨rfl, by decide, h.1, h.2.1, h.2.2⟩

end EventsGen
